import Mathlib

open scoped List

namespace Nisl

/-!
Verification development for the `nisl.region` module (regions-of-interest
extraction and handling).  The numerical code operates on numpy arrays of
floating point numbers; it is embedded here over the exact rationals, with a
3D volume flattened to a function out of a finite voxel index type
`Fin nv`, a 4D stack represented either as a list of 3D frames (when the
source iterates over the last axis) or as a curried function, and with the
generic `scipy.linalg.lstsq` call characterised by the normal equations that
every least-squares minimiser satisfies.
-/

/-! ### Mask merger: regions_to_mask

`regions_to_mask` produces the binary union mask of a collection of regions.
The list branch iterates over the input volumes one at a time, setting
`output[abs(niimg.get_data()) > threshold] = True`; the 4D branch iterates
over the last axis with `output[abs(data[..., n]) > threshold] = True`.
Both start from an all-zero output array.  `regions_to_mask_list` and
`regions_to_mask_4d` model the accumulated output array of each branch. -/

/-- One update of the list branch of `regions_to_mask`:
`output[abs(data) > threshold] = True`. -/
def mergeStep {nv : ℕ} (threshold : ℚ) (out : Fin nv → Bool) (vol : Fin nv → ℚ) :
    Fin nv → Bool :=
  fun v => out v || decide (threshold < |vol v|)

/-- The list branch of `regions_to_mask` (one 3D volume at a time). -/
def regions_to_mask_list {nv : ℕ} (vols : List (Fin nv → ℚ)) (threshold : ℚ) :
    Fin nv → Bool :=
  vols.foldl (mergeStep threshold) (fun _ => false)

/-- The 4D branch of `regions_to_mask`: iterate over the last (region) axis
of the stack, `for n in xrange(shape[3])`. -/
def regions_to_mask_4d {nv : ℕ} (stack : Fin nv → ℕ → ℚ) (nRegions : ℕ)
    (threshold : ℚ) : Fin nv → Bool :=
  (List.range nRegions).foldl
    (fun out n => mergeStep threshold out (fun v => stack v n)) (fun _ => false)

/-- The stacking of a list of 3D volumes into a single 4D stack along the
last axis (the equivalence the spec asserts between the two branches). -/
def stackVolumes {nv : ℕ} (vols : List (Fin nv → ℚ)) : Fin nv → ℕ → ℚ :=
  fun v n => (vols.getD n (fun _ => 0)) v

/-! ### Map trimmer: _trim_maps

`_trim_maps(maps, mask)` keeps the maps that have support inside the mask:
`sums = abs(maps[mask, :]).sum(axis=0)`; a map `n` is skipped when
`sums[n] == 0`, otherwise its in-mask weights are copied into the next output
column `p` (`trimmed_maps[mask, p] = maps[mask, n]`) and the union mask is
updated by `maps_mask[trimmed_maps[..., p] > 0] = 1`.  The returned indices
are `np.where(sums > 0)[0]`.  The state of the loop is the list of output
columns built so far together with the union-mask array. -/

/-- The entry `sums[n] = abs(maps[mask, :]).sum(axis=0)[n]`: the sum of absolute
weights of map `n` over the in-mask voxels. -/
def trimSums {nv nr : ℕ} (maps : Fin nv → Fin nr → ℚ) (mask : Fin nv → Bool)
    (n : Fin nr) : ℚ :=
  ∑ v ∈ Finset.univ.filter (fun v => mask v = true), |maps v n|

/-- The output column written for a kept map `n`:
`trimmed_maps[mask, p] = maps[mask, n]` on a zero-initialised array. -/
def trimCol {nv nr : ℕ} (maps : Fin nv → Fin nr → ℚ) (mask : Fin nv → Bool)
    (n : Fin nr) : Fin nv → ℚ :=
  fun v => if mask v then maps v n else 0

/-- One iteration of the `_trim_maps` loop over the maps.  The state is the
list of columns written so far (its length is the loop counter `p`) and the
union mask `maps_mask`. -/
def trimStep {nv nr : ℕ} (maps : Fin nv → Fin nr → ℚ) (mask : Fin nv → Bool)
    (st : List (Fin nv → ℚ) × (Fin nv → Bool)) (n : Fin nr) :
    List (Fin nv → ℚ) × (Fin nv → Bool) :=
  if trimSums maps mask n = 0 then st
  else
    (st.1 ++ [trimCol maps mask n],
     fun v => st.2 v || decide (0 < trimCol maps mask n v))

/-- The trimming loop of `_trim_maps`: the first component collects the
columns of `trimmed_maps`, the second is the union mask `maps_mask`. -/
def _trim_maps {nv nr : ℕ} (maps : Fin nv → Fin nr → ℚ)
    (mask : Fin nv → Bool) : List (Fin nv → ℚ) × (Fin nv → Bool) :=
  (List.finRange nr).foldl (trimStep maps mask) ([], fun _ => false)

/-- The indices returned by `_trim_maps`: `np.where(sums > 0)[0]`, in
ascending order. -/
def trimIndices {nv nr : ℕ} (maps : Fin nv → Fin nr → ℚ)
    (mask : Fin nv → Bool) : List (Fin nr) :=
  (List.finRange nr).filter (fun n => decide (0 < trimSums maps mask n))

/-- Concrete input refuting C4 as stated: a single map whose only in-mask
weight is `-1`. -/
def c4Maps : Fin 1 → Fin 1 → ℚ := fun _ _ => -1

/-- All-true mask for the C4 counterexample. -/
def c4Mask : Fin 1 → Bool := fun _ => true

/-- Concrete single-map input for the C5 witness. -/
def c5Maps : Fin 1 → Fin 1 → ℚ := fun _ _ => 2

/-- All-true mask for the C5 witness. -/
def c5Mask : Fin 1 → Bool := fun _ => true

/-! ### Weighted-map extraction: signals_from_maps

After validation, `signals_from_maps` computes
`maps_data, maps_mask, _ = _trim_maps(maps_data, mask_img.get_data())` and
then solves `linalg.lstsq(maps_data[maps_mask, :], data[maps_mask, :])`: the
rows entering the least-squares solve are exactly the voxels of the
trimmer's union mask, in raster order. -/

/-- The voxels whose rows enter the least-squares solve:
`maps_mask` applied as a boolean index, in raster order. -/
def solveRowVoxels {nv nr : ℕ} (maps : Fin nv → Fin nr → ℚ)
    (mask : Fin nv → Bool) : List (Fin nv) :=
  (List.finRange nv).filter (fun v => (_trim_maps maps mask).2 v)

/-- The matrix `maps_data[maps_mask, :]` of trimmed map weights passed to
`linalg.lstsq` (one row per union-mask voxel). -/
def solveMapsMatrix {nv nr : ℕ} (maps : Fin nv → Fin nr → ℚ)
    (mask : Fin nv → Bool) : List (List ℚ) :=
  (solveRowVoxels maps mask).map (fun v => (_trim_maps maps mask).1.map (fun col => col v))

/-- The matrix `data[maps_mask, :]` of time-series values passed to
`linalg.lstsq` (one row per union-mask voxel, one column per instant). -/
def solveDataMatrix {nv nr nt : ℕ} (maps : Fin nv → Fin nr → ℚ)
    (mask : Fin nv → Bool) (data : Fin nt → Fin nv → ℚ) : List (List ℚ) :=
  (solveRowVoxels maps mask).map (fun v => (List.finRange nt).map (fun t => data t v))

/-! ### Label aggregator: signals_from_labels / img_from_labels

`signals_from_labels` first re-labels out-of-mask voxels to
`background_label` (on a private copy), then takes
`labels = list(np.unique(labels_data))` with the background removed, and for
each time frame computes `ndimage.measurements.mean(img, labels, index)` —
the arithmetic mean of the frame over the voxels carrying each label.  A 3D
volume is embedded as a function out of `Fin nv` (the flattened voxel
index), and the 4D stack as the list of its 3D time frames (the source
iterates `np.rollaxis(data, -1)`). -/

/-- The relabelling `labels_data[np.logical_not(mask_data)] = background_label`, applied to
a private copy when a mask is supplied. -/
def maskedLabels {nv : ℕ} (labels : Fin nv → ℤ) (mask : Option (Fin nv → Bool))
    (bg : ℤ) : Fin nv → ℤ :=
  match mask with
  | none => labels
  | some m => fun v => if m v then labels v else bg

/-- Model of `np.unique`: the sorted list of distinct values of an array. -/
def npUnique {α : Type} [LinearOrder α] (l : List α) : List α :=
  l.dedup.mergeSort (fun a b => decide (a ≤ b))

/-- The list `labels = list(np.unique(labels_data))` followed by
`labels.remove(background_label)` when the background is present. -/
def uniqueLabels {α : Type} [LinearOrder α] (raster : List α) (bg : α) : List α :=
  (npUnique raster).erase bg

/-- The values of a volume listed in raster order. -/
def rasterOf {nv : ℕ} {α : Type} (vol : Fin nv → α) : List α :=
  (List.finRange nv).map vol

/-- Model of `ndimage.measurements.mean(img, labels=lab, index=l)`: the arithmetic
mean of `img` over the voxels `v` with `lab v = l`. -/
def ndimageMean {nv : ℕ} {α : Type} [DecidableEq α] (img : Fin nv → ℚ)
    (lab : Fin nv → α) (l : α) : ℚ :=
  (∑ v ∈ Finset.univ.filter (fun v => lab v = l), img v)
    / ((Finset.univ.filter (fun v => lab v = l)).card : ℚ)

/-- The computational core of `signals_from_labels` (lines after the
shape/affine validation): returns the signal matrix (one row per time
frame, one column per kept label) and the label list. -/
def signals_from_labels {nv : ℕ} (data : List (Fin nv → ℚ))
    (labels : Fin nv → ℤ) (mask : Option (Fin nv → Bool)) (bg : ℤ) :
    List (List ℚ) × List ℤ :=
  let ml := maskedLabels labels mask bg
  let ll := uniqueLabels (rasterOf ml) bg
  (data.map (fun img => ll.map (fun l => ndimageMean img ml l)), ll)

/-- The absolute tolerance `1e-9` used by the affine comparisons. -/
def affineTol : ℚ := 1 / 1000000000

/-- The test `abs(a.get_affine() - b.get_affine()).max() > 1e-9`: some entry of the
two 4×4 affines differs by more than the tolerance. -/
def affinesMismatch (a b : Fin 4 → Fin 4 → ℚ) : Prop :=
  ∃ i j, affineTol < |a i j - b i j|

instance (a b : Fin 4 → Fin 4 → ℚ) : Decidable (affinesMismatch a b) := by
  unfold affinesMismatch
  infer_instance

/-- Function `signals_from_labels` with its shape and affine validation (the checks
are performed, in source order, before any numerical work; an error result
means the function raised `ValueError` with that message before computing
any signal). -/
def signals_from_labels_checked {nv : ℕ} (stackShape : List ℕ)
    (stackAffine : Fin 4 → Fin 4 → ℚ) (labShape : List ℕ)
    (labAffine : Fin 4 → Fin 4 → ℚ)
    (maskImg : Option (List ℕ × (Fin 4 → Fin 4 → ℚ) × (Fin nv → Bool)))
    (labels : Fin nv → ℤ) (data : List (Fin nv → ℚ)) (bg : ℤ) :
    Except String (List (List ℚ) × List ℤ) :=
  let targetShape := stackShape.take 3
  if labShape ≠ targetShape then
    Except.error "labels_img and niimgs shapes must be identical."
  else if affinesMismatch labAffine stackAffine then
    Except.error "labels_img and niimgs affines must be identical"
  else
    match maskImg with
    | none => Except.ok (signals_from_labels data labels none bg)
    | some (mShape, mAffine, m) =>
      if mShape ≠ targetShape then
        Except.error "mask_img and niimgs shapes must be identical."
      else if affinesMismatch mAffine stackAffine then
        Except.error "mask_img and niimgs affines must be identical"
      else Except.ok (signals_from_labels data labels (some m) bg)

/-- Stack affine for the C7 witness: the zero matrix. -/
def w7StackAffine : Fin 4 → Fin 4 → ℚ := fun _ _ => 0

/-- Label affine for the C7 witness: every entry differs by `2e-9`. -/
def w7LabAffine : Fin 4 → Fin 4 → ℚ := fun _ _ => 2 / 1000000000

/-- Labels for the C2 witness, raster order `[2, 1]`. -/
def w2Labels : Fin 2 → ℤ := fun v => if v = 0 then 2 else 1

/-- Labels for the C2 witness, raster order `[1, 2]`. -/
def w2Labels2 : Fin 2 → ℤ := fun v => if v = 0 then 1 else 2

/-- Single time frame for the C2 witness. -/
def w2Data : List (Fin 2 → ℚ) := [fun v => if v = 0 then 4 else 6]

/-- The column `signals[:, n]` of the signal matrix broadcast to all voxels
of the n-th label. -/
def sigColumn (signals : List (List ℚ)) (n : ℕ) : List ℚ :=
  signals.map (fun row => row.getD n 0)

/-- One iteration of the `img_from_labels` loop:
`data[labels_data == label, :] = signals[:, n]`. -/
def assignStep {nv : ℕ} (ml : Fin nv → ℤ) (signals : List (List ℚ))
    (acc : Fin nv → List ℚ) (p : ℕ × ℤ) : Fin nv → List ℚ :=
  fun v => if ml v = p.2 then sigColumn signals p.1 else acc v

/-- The computational core of `img_from_labels` (after validation): starting
from a zero array of shape `target_shape + (signals.shape[0],)`, write each
label's signal column into the voxels carrying that label.  The result maps
each voxel to its time row. -/
def img_from_labels {nv : ℕ} (signals : List (List ℚ)) (labels : Fin nv → ℤ)
    (mask : Option (Fin nv → Bool)) (bg : ℤ) : Fin nv → List ℚ :=
  let ml := maskedLabels labels mask bg
  let ll := uniqueLabels (rasterOf ml) bg
  ll.enum.foldl (assignStep ml signals) (fun _ => List.replicate signals.length 0)

/-- Labels for the C3 witness. -/
def w3Labels : Fin 2 → ℤ := fun v => if v = 0 then 7 else 0

/-- Single constant-per-label time frame for the C3 witness. -/
def w3Data : List (Fin 2 → ℚ) := [fun _ => 5]

/-! ### Weighted-map solver: apply_regions

`apply_regions(voxel_signals, regions, normalize_regions)` computes
`region_signals = linalg.lstsq(regions.T, voxel_signals.T)[0].T` and, when
normalising, divides by `regions.sum(axis=1) / (regions ** 2).sum(axis=1)`.
The external `linalg.lstsq(A, B)` call is characterised by the normal
equations `Aᵀ A X = Aᵀ B`, which every least-squares minimiser (in
particular scipy's minimum-norm solution) satisfies; when `Aᵀ A` is
invertible they determine the solution uniquely. -/

/-- Normal equations for the least-squares problem `A X ≈ B`. -/
def IsLstsqSol {nv nr nt : ℕ} (A : Fin nv → Fin nr → ℚ)
    (B : Fin nv → Fin nt → ℚ) (X : Fin nr → Fin nt → ℚ) : Prop :=
  ∀ r t, (∑ v, A v r * (∑ q, A v q * X q t)) = ∑ v, A v r * B v t

/-- Function `apply_regions` given the least-squares factor
`X = linalg.lstsq(regions.T, voxel_signals.T)[0]`:
the returned signal matrix is `X.T`, divided (when `normalize_regions`) by
`regions.sum(axis=1) / (regions ** 2).sum(axis=1)`. -/
def apply_regions {nv nr nt : ℕ} (regions : Fin nr → Fin nv → ℚ)
    (X : Fin nr → Fin nt → ℚ) (normalize_regions : Bool) :
    Fin nt → Fin nr → ℚ :=
  fun t r =>
    if normalize_regions then
      X r t / ((∑ v, regions r v) / (∑ v, (regions r v) ^ 2))
    else X r t

/-- Region matrix refuting C1 as stated: one region with weights `(1, -1)`
(not all zero, but with zero sum). -/
def c1Regions : Fin 1 → Fin 2 → ℚ := fun _ v => if v = 0 then 1 else -1

/-- Voxel signals for the C1 counterexample: the constant `1` everywhere,
in particular on the region's support. -/
def c1Signals : Fin 1 → Fin 2 → ℚ := fun _ _ => 1

/-- Region weights for the C1 witness: `(1, 2)` for a single region. -/
def w1Regions : Fin 1 → Fin 2 → ℚ := fun _ v => if v = 0 then 1 else 2

/-- Voxel signals for the C1 witness: the constant `3`. -/
def w1Signals : Fin 1 → Fin 2 → ℚ := fun _ _ => 3

/-- The (unique) least-squares factor for the C1 witness input. -/
def w1X : Fin 1 → Fin 1 → ℚ := fun _ _ => 9 / 5

/-! ### Array mutation model

Numpy arrays are heap-allocated and passed by reference; `get_data()`
returns a view of the caller's array, `.copy()` allocates a fresh array, and
slice assignment mutates in place.  To settle the frame claim (no operation
mutates a caller-owned array) the three functions that perform slice
assignments are modelled as state transformers over an explicit heap: a
reference is a natural number, every array is a rational-valued function of
two flat indices, and allocation hands out the next fresh reference.  The
modelled steps mirror the source lines: `signals_from_labels` (lines
159-175: optional label copy + relabel, fresh signal array written in the
time loop), `img_from_labels` (lines 229-242: fresh output array, optional
label copy + relabel, assignment loop) and `_trim_maps` (lines 377-396:
`maps.copy()`, fresh trimmed array and union mask written in the loop). -/

/-- A heap of numpy arrays: `mem ref i j` is the value of array `ref` at
flat index `(i, j)`; `next` is the next fresh reference. -/
structure Heap where
  mem : ℕ → ℕ → ℕ → ℚ
  next : ℕ

/-- Allocate a fresh array (models `np.zeros`, `np.ndarray`, `.copy()`). -/
def heapAlloc (h : Heap) (a : ℕ → ℕ → ℚ) : Heap × ℕ :=
  ({ mem := Function.update h.mem h.next a, next := h.next + 1 }, h.next)

/-- Overwrite the array at `ref` (models in-place slice assignment). -/
def heapWrite (h : Heap) (ref : ℕ) (a : ℕ → ℕ → ℚ) : Heap :=
  { mem := Function.update h.mem ref a, next := h.next }

/-- Heap `h` extends `h0` below `N`: all references `< N` hold their `h0`
contents and the allocation frontier is at least `N`. -/
def HeapExtends (h0 h : Heap) (N : ℕ) : Prop :=
  N ≤ h.next ∧ ∀ r, r < N → h.mem r = h0.mem r

/-- Heap model of `signals_from_labels` after validation (lines 159-175):
if a mask is supplied the labels are copied and the copy is relabelled in
place; the signal matrix is a fresh allocation written once per time frame.
Returns the final heap, the reference of the labels actually used, the
signal-matrix reference and the label list. -/
def signalsFromLabelsHeap (nv nt : ℕ) (h : Heap) (labRef dataRef : ℕ)
    (maskRef : Option ℕ) (bg : ℚ) : Heap × ℕ × ℕ × List ℚ :=
  let st :=
    match maskRef with
    | none => (h, labRef)
    | some mr =>
      let al := heapAlloc h (h.mem labRef)
      (heapWrite al.1 al.2 (fun i j =>
        if al.1.mem mr i j = 0 then bg else al.1.mem al.2 i j), al.2)
  let h1 := st.1
  let lref := st.2
  let ll := uniqueLabels (rasterOf (fun v : Fin nv => h1.mem lref v.val 0)) bg
  let al2 := heapAlloc h1 (fun _ _ => 0)
  let h3 := (List.range nt).foldl (fun hh n =>
    heapWrite hh al2.2 (fun i j =>
      if i = n ∧ j < ll.length then
        ndimageMean (fun v : Fin nv => hh.mem dataRef v.val n)
          (fun v : Fin nv => hh.mem lref v.val 0) (ll.getD j 0)
      else hh.mem al2.2 i j)) al2.1
  (h3, lref, al2.2, ll)

/-- Heap model of `img_from_labels` after validation (lines 229-242): a
fresh zero output array, the optional label copy + relabel, then the
assignment loop `data[labels_data == label, :] = signals[:, n]`.  Returns
the final heap and the output reference. -/
def imgFromLabelsHeap (nv : ℕ) (h : Heap) (signals : List (List ℚ))
    (labRef : ℕ) (maskRef : Option ℕ) (bg : ℚ) : Heap × ℕ :=
  let al := heapAlloc h (fun _ _ => 0)
  let st :=
    match maskRef with
    | none => (al.1, labRef)
    | some mr =>
      let al2 := heapAlloc al.1 (al.1.mem labRef)
      (heapWrite al2.1 al2.2 (fun i j =>
        if al2.1.mem mr i j = 0 then bg else al2.1.mem al2.2 i j), al2.2)
  let h1 := st.1
  let lref := st.2
  let ll := uniqueLabels (rasterOf (fun v : Fin nv => h1.mem lref v.val 0)) bg
  let h2 := ll.enum.foldl (fun hh p =>
    heapWrite hh al.2 (fun i j =>
      if i < nv ∧ hh.mem lref i 0 = p.2 then (sigColumn signals p.1).getD j 0
      else hh.mem al.2 i j)) h1
  (h2, al.2)

/-- Heap model of `_trim_maps` (lines 377-396): `maps = maps.copy()` first,
fresh zero arrays for `trimmed_maps` and `maps_mask`, then the loop writing
the kept columns and the union mask.  A map column `n` lives at flat
indices `(v, n)`; the mask and `maps_mask` are 1D arrays at indices
`(i, 0)`.  Returns the final heap, the trimmed-maps reference and the
union-mask reference. -/
def trimMapsHeap (nv nr : ℕ) (h : Heap) (mapsRef maskRef : ℕ) :
    Heap × ℕ × ℕ :=
  let al := heapAlloc h (h.mem mapsRef)
  let h1 := al.1
  let mref := al.2
  let sums : Fin nr → ℚ := fun n =>
    ∑ v ∈ Finset.univ.filter (fun v : Fin nv => h1.mem maskRef v.val 0 ≠ 0),
      |h1.mem mref v.val n.val|
  let al2 := heapAlloc h1 (fun _ _ => 0)
  let al3 := heapAlloc al2.1 (fun _ _ => 0)
  let fin := (List.finRange nr).foldl (fun (st : Heap × ℕ) n =>
    if sums n = 0 then st
    else
      let hh2 := heapWrite st.1 al2.2 (fun i j =>
        if j = st.2 ∧ i < nv ∧ st.1.mem maskRef i 0 ≠ 0 then st.1.mem mref i n.val
        else st.1.mem al2.2 i j)
      let hh3 := heapWrite hh2 al3.2 (fun i j =>
        if j = 0 ∧ 0 < hh2.mem al2.2 i st.2 then 1 else hh2.mem al3.2 i j)
      (hh3, st.2 + 1)) (al3.1, 0)
  (fin.1, al2.2, al3.2)

/-- A concrete three-array heap for the C10 witness. -/
def w10Heap : Heap := { mem := fun _ _ _ => 0, next := 3 }

theorem mergeFold_eq_any {nv : ℕ} (threshold : ℚ) (vols : List (Fin nv → ℚ))
    (init : Fin nv → Bool) (v : Fin nv) :
    (vols.foldl (mergeStep threshold) init) v
      = (init v || vols.any (fun vol => decide (threshold < |vol v|))) := by
  induction vols generalizing init with
  | nil => simp
  | cons w ws ih =>
      simp only [List.foldl_cons, List.any_cons]
      rw [ih]
      simp [mergeStep, Bool.or_assoc]

theorem regions_to_mask_list_iff {nv : ℕ} (vols : List (Fin nv → ℚ))
    (threshold : ℚ) (v : Fin nv) :
    regions_to_mask_list vols threshold v = true
      ↔ ∃ vol ∈ vols, threshold < |vol v| := by
  unfold regions_to_mask_list
  rw [mergeFold_eq_any]
  simp

theorem map_getD_range {α : Type} (l : List α) (d : α) :
    (List.range l.length).map (fun n => l.getD n d) = l := by
  induction l with
  | nil => simp
  | cons x xs ih =>
      rw [List.length_cons, List.range_succ_eq_map, List.map_cons]
      simp only [List.getD_cons_zero, List.map_map]
      have hmap : (List.range xs.length).map ((fun n => (x :: xs).getD n d) ∘ Nat.succ)
          = (List.range xs.length).map (fun n => xs.getD n d) := by
        apply List.map_congr_left
        intro a _
        simp [List.getD_cons_succ]
      rw [hmap, ih]

theorem regions_to_mask_4d_eq_list {nv : ℕ} (stack : Fin nv → ℕ → ℚ)
    (nRegions : ℕ) (threshold : ℚ) :
    regions_to_mask_4d stack nRegions threshold
      = regions_to_mask_list ((List.range nRegions).map (fun n v => stack v n))
          threshold := by
  unfold regions_to_mask_4d regions_to_mask_list
  rw [List.foldl_map]

/-- C8: in `regions_to_mask`, membership of a voxel in the output mask uses
the strict inequality `abs(weight) > threshold` (in both the list-of-volumes
branch and the 4D-stack branch).  At `threshold = 0`, a voxel whose weight is
exactly `0` in every input volume is excluded, while a voxel with any nonzero
weight (e.g. `1e-12` in absolute value) in at least one input is included. -/
theorem regions_to_mask_strict_threshold {nv : ℕ} (vols : List (Fin nv → ℚ))
    (stack : Fin nv → ℕ → ℚ) (nRegions : ℕ) (v : Fin nv) :
    (regions_to_mask_list vols 0 v = true ↔ ∃ vol ∈ vols, vol v ≠ 0)
    ∧ (regions_to_mask_4d stack nRegions 0 v = true
        ↔ ∃ n < nRegions, stack v n ≠ 0)
    ∧ ∀ threshold : ℚ,
        (regions_to_mask_list vols threshold v = true
          ↔ ∃ vol ∈ vols, threshold < |vol v|) := by
  refine ⟨?_, ?_, fun threshold => regions_to_mask_list_iff vols threshold v⟩
  · rw [regions_to_mask_list_iff]
    simp [abs_pos]
  · rw [regions_to_mask_4d_eq_list, regions_to_mask_list_iff]
    simp [abs_pos]

/-- C9: merging a list of `N ≥ 1` single-region volumes produces exactly the
same output mask as merging the single 4D stack formed from those volumes
along the last axis, for any threshold. -/
theorem regions_to_mask_list_eq_4d {nv : ℕ} (vols : List (Fin nv → ℚ))
    (threshold : ℚ) (hN : vols ≠ []) :
    regions_to_mask_list vols threshold
      = regions_to_mask_4d (stackVolumes vols) vols.length threshold := by
  unfold regions_to_mask_list regions_to_mask_4d stackVolumes
  conv_lhs => rw [← map_getD_range vols (fun _ => 0)]
  rw [List.foldl_map]

/-- Witness for C9 at a concrete input: a list of two volumes on two voxels. -/
theorem regions_to_mask_list_eq_4d_witness :
    regions_to_mask_list
        [fun v : Fin 2 => if v = 0 then (1 : ℚ) else 0, fun _ => (2 : ℚ)] 0
      = regions_to_mask_4d
          (stackVolumes
            [fun v : Fin 2 => if v = 0 then (1 : ℚ) else 0, fun _ => (2 : ℚ)])
          2 0 :=
  regions_to_mask_list_eq_4d _ 0 (by simp)

theorem trimSums_nonneg {nv nr : ℕ} (maps : Fin nv → Fin nr → ℚ)
    (mask : Fin nv → Bool) (n : Fin nr) : 0 ≤ trimSums maps mask n :=
  Finset.sum_nonneg (fun v _ => abs_nonneg (maps v n))

theorem trimSums_pos_iff {nv nr : ℕ} (maps : Fin nv → Fin nr → ℚ)
    (mask : Fin nv → Bool) (n : Fin nr) :
    0 < trimSums maps mask n ↔ ∃ v, mask v = true ∧ maps v n ≠ 0 := by
  rw [lt_iff_le_and_ne, and_iff_right (trimSums_nonneg maps mask n), ne_comm]
  unfold trimSums
  rw [Ne, Finset.sum_eq_zero_iff_of_nonneg (fun v _ => abs_nonneg (maps v n))]
  push_neg
  constructor
  · rintro ⟨v, hv, habs⟩
    exact ⟨v, by simpa using hv, by simpa using habs⟩
  · rintro ⟨v, hv, hne⟩
    exact ⟨v, by simpa using hv, by simpa using hne⟩

theorem trimSums_ne_zero_iff {nv nr : ℕ} (maps : Fin nv → Fin nr → ℚ)
    (mask : Fin nv → Bool) (n : Fin nr) :
    ¬ trimSums maps mask n = 0 ↔ ∃ v, mask v = true ∧ maps v n ≠ 0 := by
  rw [← trimSums_pos_iff]
  constructor
  · intro h
    exact lt_of_le_of_ne (trimSums_nonneg maps mask n) (Ne.symm h)
  · intro h
    exact ne_of_gt h

/-- The columns accumulated by the trimming loop are the columns of the kept
maps, in order of increasing original index. -/
theorem trimFold_cols {nv nr : ℕ} (maps : Fin nv → Fin nr → ℚ)
    (mask : Fin nv → Bool) (l : List (Fin nr))
    (st : List (Fin nv → ℚ) × (Fin nv → Bool)) :
    (l.foldl (trimStep maps mask) st).1
      = st.1 ++ (l.filter (fun n => decide (¬ trimSums maps mask n = 0))).map
          (trimCol maps mask) := by
  induction l generalizing st with
  | nil => simp
  | cons n ns ih =>
      rw [List.foldl_cons, ih, List.filter_cons]
      unfold trimStep
      by_cases h : trimSums maps mask n = 0
      · simp [h]
      · simp [h]

/-- The union mask accumulated by the trimming loop: a voxel is set iff it
was set initially or some kept map's trimmed column is positive there. -/
theorem trimFold_mask {nv nr : ℕ} (maps : Fin nv → Fin nr → ℚ)
    (mask : Fin nv → Bool) (l : List (Fin nr))
    (st : List (Fin nv → ℚ) × (Fin nv → Bool)) (v : Fin nv) :
    (l.foldl (trimStep maps mask) st).2 v
      = (st.2 v || l.any (fun n =>
          decide (¬ trimSums maps mask n = 0) && decide (0 < trimCol maps mask n v))) := by
  induction l generalizing st with
  | nil => simp
  | cons n ns ih =>
      rw [List.foldl_cons, ih, List.any_cons]
      unfold trimStep
      by_cases h : trimSums maps mask n = 0
      · simp [h]
      · simp [h, Bool.or_assoc]

/-- C4 counterexample: the output region count of `_trim_maps` is NOT the
number of input maps having a strictly positive in-mask weight.  A map whose
in-mask weights are all negative has `sums[n] = abs(...).sum() > 0` and is
kept, although it has no strictly positive weight anywhere. -/
theorem _trim_maps_count_counterexample :
    (_trim_maps c4Maps c4Mask).1.length
      ≠ ((List.finRange 1).filter
          (fun n => decide (∃ v, c4Mask v = true ∧ 0 < c4Maps v n))).length := by
  have hfr : List.finRange 1 = [(0 : Fin 1)] := by decide
  have hsum : trimSums c4Maps c4Mask 0 = 1 := by
    unfold trimSums c4Maps c4Mask
    simp
  have hlhs : (_trim_maps c4Maps c4Mask).1.length = 1 := by
    unfold _trim_maps
    rw [hfr, List.foldl_cons, List.foldl_nil]
    unfold trimStep
    rw [hsum, if_neg one_ne_zero]
    simp
  have hex : (decide (∃ v : Fin 1, c4Mask v = true ∧ 0 < c4Maps v (0 : Fin 1)))
      = false := by
    simp only [decide_eq_false_iff_not]
    rintro ⟨v, -, hpos⟩
    unfold c4Maps at hpos
    norm_num at hpos
  have hrhs : ((List.finRange 1).filter
      (fun n => decide (∃ v, c4Mask v = true ∧ 0 < c4Maps v n))).length = 0 := by
    rw [hfr, List.filter_cons, hex]
    simp
  rw [hlhs, hrhs]
  norm_num

/-- C4 (amended): the output region count of `_trim_maps` equals the number
of input maps having at least one NONZERO weight on an in-mask voxel (the
code tests `abs(maps[mask, :]).sum(axis=0) > 0`, which ignores the sign);
the kept-indices list is strictly increasing, a subsequence of
`range(original_region_count)`, and has the same length as the output. -/
theorem _trim_maps_count {nv nr : ℕ} (maps : Fin nv → Fin nr → ℚ)
    (mask : Fin nv → Bool) :
    (_trim_maps maps mask).1.length
      = ((List.finRange nr).filter
          (fun n => decide (∃ v, mask v = true ∧ maps v n ≠ 0))).length
    ∧ (trimIndices maps mask).Sorted (· < ·)
    ∧ (trimIndices maps mask).Sublist (List.finRange nr)
    ∧ (trimIndices maps mask).length = (_trim_maps maps mask).1.length := by
  have hfilter : ∀ p : Fin nr → Prop, ∀ inst : DecidablePred p,
      (∀ n : Fin nr, p n ↔ ∃ v, mask v = true ∧ maps v n ≠ 0) →
      (List.finRange nr).filter (fun n => decide (p n))
        = (List.finRange nr).filter
            (fun n => decide (∃ v, mask v = true ∧ maps v n ≠ 0)) := by
    intro p inst hp
    apply List.filter_congr
    intro n _
    simp only [decide_eq_decide]
    exact hp n
  have hcols : (_trim_maps maps mask).1.length
      = ((List.finRange nr).filter
          (fun n => decide (∃ v, mask v = true ∧ maps v n ≠ 0))).length := by
    unfold _trim_maps
    rw [trimFold_cols, List.nil_append, List.length_map]
    rw [hfilter _ _ (fun n => trimSums_ne_zero_iff maps mask n)]
  refine ⟨hcols, ?_, List.filter_sublist _, ?_⟩
  · exact List.Pairwise.filter _ (List.pairwise_lt_finRange nr)
  · rw [hcols]
    unfold trimIndices
    rw [hfilter _ _ (fun n => trimSums_pos_iff maps mask n)]

/-- Characterisation of the union mask built by the trimming loop, in terms
of the kept trimmed columns. -/
theorem trim_mask_eq_true_iff {nv nr : ℕ} (maps : Fin nv → Fin nr → ℚ)
    (mask : Fin nv → Bool) (v : Fin nv) :
    (_trim_maps maps mask).2 v = true
      ↔ ∃ col ∈ (_trim_maps maps mask).1, 0 < col v := by
  unfold _trim_maps
  rw [trimFold_mask, trimFold_cols]
  simp only [Bool.false_or, List.any_eq_true, List.nil_append, List.mem_map,
    List.mem_filter, Bool.and_eq_true, decide_eq_true_eq]
  constructor
  · rintro ⟨n, hmem, hns, hpos⟩
    exact ⟨trimCol maps mask n, ⟨n, ⟨List.mem_finRange n, by simpa using hns⟩, rfl⟩, hpos⟩
  · rintro ⟨col, ⟨n, ⟨hmem, hns⟩, rfl⟩, hpos⟩
    exact ⟨n, List.mem_finRange n, by simpa using hns, hpos⟩

/-- C5: in the union mask returned by `_trim_maps`, a voxel is set iff at
least one kept, trimmed output column carries a strictly positive weight at
that voxel; in particular a voxel where kept trimmed maps carry only
negative or zero weights is not set. -/
theorem _trim_maps_union_mask {nv nr : ℕ} (maps : Fin nv → Fin nr → ℚ)
    (mask : Fin nv → Bool) (v : Fin nv) :
    ((_trim_maps maps mask).2 v = true
      ↔ ∃ col ∈ (_trim_maps maps mask).1, 0 < col v)
    ∧ ((∀ col ∈ (_trim_maps maps mask).1, col v ≤ 0)
        → (_trim_maps maps mask).2 v = false) := by
  refine ⟨trim_mask_eq_true_iff maps mask v, fun hle => ?_⟩
  rw [Bool.eq_false_iff]
  intro htrue
  obtain ⟨col, hmem, hpos⟩ := (trim_mask_eq_true_iff maps mask v).mp htrue
  exact absurd (hle col hmem) (not_le.mpr hpos)

/-- Witness for C5 at a concrete input (one positive in-mask weight). -/
theorem _trim_maps_union_mask_witness :
    ((_trim_maps c5Maps c5Mask).2 0 = true
      ↔ ∃ col ∈ (_trim_maps c5Maps c5Mask).1, 0 < col 0)
    ∧ ((∀ col ∈ (_trim_maps c5Maps c5Mask).1, col 0 ≤ 0)
        → (_trim_maps c5Maps c5Mask).2 0 = false) :=
  _trim_maps_union_mask c5Maps c5Mask 0

/-- C6: `signals_from_maps` solves only over the voxels of the trimmer's
union mask.  An in-mask voxel at which every map weight is negative or zero
is not in the union mask, appears in no row of the least-squares input, and
changing the time-series values at that voxel leaves the least-squares input
unchanged. -/
theorem signals_from_maps_ignores_nonpositive_voxel {nv nr nt : ℕ}
    (maps : Fin nv → Fin nr → ℚ) (mask : Fin nv → Bool) (v : Fin nv)
    (hmask : mask v = true) (hnp : ∀ n, maps v n ≤ 0) :
    (_trim_maps maps mask).2 v = false
    ∧ (∀ w ∈ solveRowVoxels maps mask, w ≠ v)
    ∧ ∀ data data2 : Fin nt → Fin nv → ℚ,
        (∀ t w, w ≠ v → data t w = data2 t w) →
        solveDataMatrix maps mask data = solveDataMatrix maps mask data2 := by
  have hfalse : (_trim_maps maps mask).2 v = false := by
    rw [Bool.eq_false_iff]
    intro htrue
    obtain ⟨col, hmem, hpos⟩ := (trim_mask_eq_true_iff maps mask v).mp htrue
    unfold _trim_maps at hmem
    rw [trimFold_cols, List.nil_append] at hmem
    obtain ⟨n, _, rfl⟩ := List.mem_map.mp hmem
    unfold trimCol at hpos
    rw [hmask, if_pos rfl] at hpos
    exact absurd (hnp n) (not_le.mpr hpos)
  have hrow : ∀ w ∈ solveRowVoxels maps mask, w ≠ v := by
    intro w hw
    unfold solveRowVoxels at hw
    obtain ⟨-, hw2⟩ := List.mem_filter.mp hw
    intro heq
    rw [heq, hfalse] at hw2
    exact Bool.false_ne_true hw2
  refine ⟨hfalse, hrow, fun data data2 hdat => ?_⟩
  unfold solveDataMatrix
  apply List.map_congr_left
  intro w hw
  apply List.map_congr_left
  intro t _
  exact hdat t w (hrow w hw)

/-- Witness for C6 at a concrete input: two voxels, one map with weight `-1`
on voxel 0 and `1` on voxel 1, under an all-true mask. -/
theorem signals_from_maps_ignores_nonpositive_voxel_witness :
    (_trim_maps (fun v (_ : Fin 1) => if v = 0 then (-1 : ℚ) else 1)
        (fun _ : Fin 2 => true)).2 0 = false :=
  (@signals_from_maps_ignores_nonpositive_voxel 2 1 1
    (fun v (_ : Fin 1) => if v = 0 then (-1 : ℚ) else 1)
    (fun _ : Fin 2 => true) 0 rfl (by intro n; norm_num)).1

/-- C7: a mismatched label-volume shape, or any affine entry differing by
more than `1e-9` (e.g. by `2e-9`), makes `signals_from_labels` fail with the
corresponding error (and hence return no signals), and likewise for a
supplied mask with mismatched shape or affine. -/
theorem signals_from_labels_validation {nv : ℕ} (stackShape : List ℕ)
    (stackAffine : Fin 4 → Fin 4 → ℚ) (labShape : List ℕ)
    (labAffine : Fin 4 → Fin 4 → ℚ)
    (maskImg : Option (List ℕ × (Fin 4 → Fin 4 → ℚ) × (Fin nv → Bool)))
    (labels : Fin nv → ℤ) (data : List (Fin nv → ℚ)) (bg : ℤ) :
    (labShape ≠ stackShape.take 3 →
      signals_from_labels_checked stackShape stackAffine labShape labAffine
          maskImg labels data bg
        = Except.error "labels_img and niimgs shapes must be identical.")
    ∧ (labShape = stackShape.take 3 → affinesMismatch labAffine stackAffine →
      signals_from_labels_checked stackShape stackAffine labShape labAffine
          maskImg labels data bg
        = Except.error "labels_img and niimgs affines must be identical")
    ∧ (∀ mShape mAffine m, maskImg = some (mShape, mAffine, m) →
        labShape = stackShape.take 3 →
        ¬ affinesMismatch labAffine stackAffine →
        mShape ≠ stackShape.take 3 →
      signals_from_labels_checked stackShape stackAffine labShape labAffine
          maskImg labels data bg
        = Except.error "mask_img and niimgs shapes must be identical.")
    ∧ (∀ mShape mAffine m, maskImg = some (mShape, mAffine, m) →
        labShape = stackShape.take 3 →
        ¬ affinesMismatch labAffine stackAffine →
        mShape = stackShape.take 3 →
        affinesMismatch mAffine stackAffine →
      signals_from_labels_checked stackShape stackAffine labShape labAffine
          maskImg labels data bg
        = Except.error "mask_img and niimgs affines must be identical") := by
  refine ⟨?_, ?_, ?_, ?_⟩
  · intro hs
    unfold signals_from_labels_checked
    rw [if_pos hs]
  · intro hs ha
    unfold signals_from_labels_checked
    rw [if_neg (by simpa using hs), if_pos ha]
  · intro mShape mAffine m hm hs ha hms
    unfold signals_from_labels_checked
    rw [if_neg (by simpa using hs), if_neg ha, hm]
    dsimp only
    rw [if_pos hms]
  · intro mShape mAffine m hm hs ha hms hma
    unfold signals_from_labels_checked
    rw [if_neg (by simpa using hs), if_neg ha, hm]
    dsimp only
    rw [if_neg (by simpa using hms), if_pos hma]

/-- Witness for C7: an affine differing by `2e-9` from the stack's affine
makes the extraction fail with the affine error. -/
theorem signals_from_labels_validation_witness :
    @signals_from_labels_checked 1 [1, 1, 1, 1] w7StackAffine [1, 1, 1]
        w7LabAffine none (fun _ => 0) [] 0
      = Except.error "labels_img and niimgs affines must be identical" :=
  (signals_from_labels_validation [1, 1, 1, 1] w7StackAffine [1, 1, 1]
      w7LabAffine none (fun _ => 0) [] 0).2.1 rfl
    ⟨0, 0, by
      unfold w7LabAffine w7StackAffine affineTol
      rw [sub_zero, abs_of_pos (by norm_num : (0 : ℚ) < 2 / 1000000000)]
      norm_num⟩

theorem npUnique_sorted {α : Type} [LinearOrder α] (l : List α) :
    (npUnique l).Sorted (· ≤ ·) :=
  List.sorted_mergeSort' l.dedup

theorem npUnique_perm_dedup {α : Type} [LinearOrder α] (l : List α) :
    npUnique l ~ l.dedup :=
  List.mergeSort_perm l.dedup _

theorem npUnique_nodup {α : Type} [LinearOrder α] (l : List α) :
    (npUnique l).Nodup :=
  (npUnique_perm_dedup l).nodup_iff.mpr l.nodup_dedup

theorem npUnique_mem {α : Type} [LinearOrder α] (l : List α) (x : α) :
    x ∈ npUnique l ↔ x ∈ l := by
  rw [(npUnique_perm_dedup l).mem_iff, List.mem_dedup]

theorem npUnique_perm_congr {α : Type} [LinearOrder α] (l₁ l₂ : List α)
    (h : l₁ ~ l₂) : npUnique l₁ = npUnique l₂ :=
  List.eq_of_perm_of_sorted
    (((npUnique_perm_dedup l₁).trans h.dedup).trans (npUnique_perm_dedup l₂).symm)
    (npUnique_sorted l₁) (npUnique_sorted l₂)

theorem uniqueLabels_nodup {α : Type} [LinearOrder α] (raster : List α) (bg : α) :
    (uniqueLabels raster bg).Nodup :=
  (npUnique_nodup raster).erase bg

theorem uniqueLabels_sorted_lt {α : Type} [LinearOrder α] (raster : List α)
    (bg : α) : (uniqueLabels raster bg).Sorted (· < ·) :=
  List.Sorted.lt_of_le
    (List.Pairwise.sublist (List.erase_sublist bg (npUnique raster))
      (npUnique_sorted raster))
    (uniqueLabels_nodup raster bg)

theorem uniqueLabels_mem {α : Type} [LinearOrder α] (raster : List α) (bg : α)
    (x : α) : x ∈ uniqueLabels raster bg ↔ x ∈ raster ∧ x ≠ bg := by
  unfold uniqueLabels
  rw [(npUnique_nodup raster).mem_erase_iff, npUnique_mem, and_comm]

theorem uniqueLabels_perm_congr {α : Type} [LinearOrder α] (l₁ l₂ : List α)
    (bg : α) (h : l₁ ~ l₂) : uniqueLabels l₁ bg = uniqueLabels l₂ bg := by
  unfold uniqueLabels
  rw [npUnique_perm_congr l₁ l₂ h]

theorem rasterOf_mem {nv : ℕ} {α : Type} (vol : Fin nv → α) (x : α) :
    x ∈ rasterOf vol ↔ ∃ v, vol v = x := by
  unfold rasterOf
  simp

theorem getD_map_of_lt {α β : Type} (l : List α) (f : α → β) (t : ℕ) (d : α)
    (d2 : β) (ht : t < l.length) : (l.map f).getD t d2 = f (l.getD t d) := by
  rw [List.getD_eq_getElem l d ht,
    List.getD_eq_getElem (l.map f) d2 (by simpa using ht), List.getElem_map]

/-- C2: `signals_from_labels` returns as label list the numerically
ascending sequence of the distinct labels present after mask application,
excluding the background label; the entry of the signal matrix at (instant
`t`, column `n`) is the arithmetic mean of the frame over the voxels
carrying label `label_list[n]`; and the label list only depends on the
multiset of masked labels, not on their raster order. -/
theorem signals_from_labels_spec {nv : ℕ} (data : List (Fin nv → ℚ))
    (labels labels2 : Fin nv → ℤ) (mask mask2 : Option (Fin nv → Bool))
    (bg : ℤ) :
    ((signals_from_labels data labels mask bg).2.Sorted (· < ·))
    ∧ (∀ x : ℤ, x ∈ (signals_from_labels data labels mask bg).2
        ↔ (∃ v, maskedLabels labels mask bg v = x) ∧ x ≠ bg)
    ∧ (∀ t n : ℕ, t < data.length →
        n < (signals_from_labels data labels mask bg).2.length →
        ((signals_from_labels data labels mask bg).1.getD t []).getD n 0
          = (∑ v ∈ Finset.univ.filter (fun v =>
                maskedLabels labels mask bg v
                  = (signals_from_labels data labels mask bg).2.getD n 0),
              (data.getD t (fun _ => 0)) v)
            / ((Finset.univ.filter (fun v =>
                maskedLabels labels mask bg v
                  = (signals_from_labels data labels mask bg).2.getD n 0)).card : ℚ))
    ∧ (rasterOf (maskedLabels labels2 mask2 bg)
          ~ rasterOf (maskedLabels labels mask bg) →
        (signals_from_labels data labels2 mask2 bg).2
          = (signals_from_labels data labels mask bg).2) := by
  refine ⟨uniqueLabels_sorted_lt _ bg, ?_, ?_, ?_⟩
  · intro x
    rw [show (signals_from_labels data labels mask bg).2
        = uniqueLabels (rasterOf (maskedLabels labels mask bg)) bg from rfl]
    rw [uniqueLabels_mem, rasterOf_mem]
  · intro t n ht hn
    have hn2 : n < (uniqueLabels (rasterOf (maskedLabels labels mask bg)) bg).length := hn
    rw [show (signals_from_labels data labels mask bg).1
        = data.map (fun img =>
            (uniqueLabels (rasterOf (maskedLabels labels mask bg)) bg).map
              (fun l => ndimageMean img (maskedLabels labels mask bg) l)) from rfl]
    rw [getD_map_of_lt data _ t (fun _ => 0) [] ht]
    rw [getD_map_of_lt _ _ n 0 0 hn2]
    rfl
  · intro hperm
    exact uniqueLabels_perm_congr _ _ bg hperm

/-- Witness for C2 at a concrete input: two voxels with labels `[2, 1]`,
no mask, background `0`; the label list is ascending and raster-order
independent, and the signal entries are the per-label means. -/
theorem signals_from_labels_spec_witness :
    ((signals_from_labels w2Data w2Labels none 0).2.Sorted (· < ·))
    ∧ (((signals_from_labels w2Data w2Labels none 0).1.getD 0 []).getD 0 0
        = (∑ v ∈ Finset.univ.filter (fun v =>
              maskedLabels w2Labels none 0 v
                = (signals_from_labels w2Data w2Labels none 0).2.getD 0 0),
            (w2Data.getD 0 (fun _ => 0)) v)
          / ((Finset.univ.filter (fun v =>
              maskedLabels w2Labels none 0 v
                = (signals_from_labels w2Data w2Labels none 0).2.getD 0 0)).card : ℚ))
    ∧ (signals_from_labels w2Data w2Labels2 none 0).2
        = (signals_from_labels w2Data w2Labels none 0).2 := by
  have h := signals_from_labels_spec w2Data w2Labels w2Labels2 none none 0
  refine ⟨h.1, ?_, ?_⟩
  · refine h.2.2.1 0 0 (by norm_num [w2Data]) ?_
    have hmem : (1 : ℤ) ∈ (signals_from_labels w2Data w2Labels none 0).2 := by
      rw [(h.2.1 1)]
      refine ⟨⟨1, ?_⟩, by norm_num⟩
      unfold maskedLabels w2Labels
      norm_num
    exact List.length_pos.mpr (List.ne_nil_of_mem hmem)
  · refine h.2.2.2 ?_
    unfold rasterOf maskedLabels w2Labels w2Labels2
    have hfr : List.finRange 2 = [(0 : Fin 2), 1] := by decide
    rw [hfr]
    simp only [List.map_cons, List.map_nil]
    norm_num
    exact List.Perm.swap 2 1 []

theorem foldl_assign_not_mem {nv : ℕ} (ml : Fin nv → ℤ)
    (signals : List (List ℚ)) (ll : List ℤ) (k : ℕ) (init : Fin nv → List ℚ)
    (v : Fin nv) (hv : ml v ∉ ll) :
    ((ll.enumFrom k).foldl (assignStep ml signals) init) v = init v := by
  induction ll generalizing k init with
  | nil => rfl
  | cons x xs ih =>
      rw [List.enumFrom_cons, List.foldl_cons]
      rw [ih (k + 1) _ (fun hmem => hv (List.mem_cons_of_mem x hmem))]
      unfold assignStep
      rw [if_neg (fun heq => hv (by rw [heq]; exact List.mem_cons_self x xs))]

theorem foldl_assign_get {nv : ℕ} (ml : Fin nv → ℤ) (signals : List (List ℚ))
    (ll : List ℤ) (hnd : ll.Nodup) (k : ℕ) (init : Fin nv → List ℚ)
    (v : Fin nv) (n : ℕ) (hn : n < ll.length) (hget : ll.get ⟨n, hn⟩ = ml v) :
    ((ll.enumFrom k).foldl (assignStep ml signals) init) v
      = sigColumn signals (k + n) := by
  induction ll generalizing k init n with
  | nil => exact absurd hn (Nat.not_lt_zero n)
  | cons x xs ih =>
      rw [List.enumFrom_cons, List.foldl_cons]
      obtain ⟨hx, hndxs⟩ := List.nodup_cons.mp hnd
      cases n with
      | zero =>
          have hxv : ml v = x := by
            rw [← hget]
            rfl
          have hnot : ml v ∉ xs := by
            rw [hxv]
            exact hx
          rw [foldl_assign_not_mem ml signals xs (k + 1) _ v hnot]
          unfold assignStep
          rw [if_pos hxv, Nat.add_zero]
      | succ m =>
          have hm : m < xs.length := Nat.lt_of_succ_lt_succ hn
          have hgetm : xs.get ⟨m, hm⟩ = ml v := by
            rw [← hget]
            rfl
          rw [ih hndxs (k + 1) _ m hm hgetm]
          congr 1
          omega

/-- A masked label that is not the background equals the raw label. -/
theorem maskedLabels_eq_of_ne_bg {nv : ℕ} (labels : Fin nv → ℤ)
    (mask : Option (Fin nv → Bool)) (bg : ℤ) (v : Fin nv)
    (h : maskedLabels labels mask bg v ≠ bg) :
    maskedLabels labels mask bg v = labels v := by
  cases mask with
  | none => rfl
  | some m =>
      by_cases hm : m v
      · show (if m v = true then labels v else bg) = labels v
        rw [if_pos hm]
      · exfalso
        apply h
        show (if m v = true then labels v else bg) = bg
        rw [if_neg hm]

/-- Mean of a frame that is constant on a label class: if the frame takes
the value of voxel `v` on every voxel of the class of `v`, the class mean is
that value. -/
theorem ndimageMean_of_const {nv : ℕ} (img : Fin nv → ℚ) (ml : Fin nv → ℤ)
    (v : Fin nv) (hconst : ∀ w, ml w = ml v → img w = img v) :
    ndimageMean img ml (ml v) = img v := by
  unfold ndimageMean
  have hsum : (∑ w ∈ Finset.univ.filter (fun w => ml w = ml v), img w)
      = ((Finset.univ.filter (fun w => ml w = ml v)).card : ℚ) * img v := by
    rw [Finset.sum_congr rfl (fun w hw => hconst w (Finset.mem_filter.mp hw).2)]
    rw [Finset.sum_const, nsmul_eq_mul]
  have hpos : 0 < (Finset.univ.filter (fun w => ml w = ml v)).card :=
    Finset.card_pos.mpr ⟨v, Finset.mem_filter.mpr ⟨Finset.mem_univ v, rfl⟩⟩
  rw [hsum, mul_div_cancel_left₀]
  exact Nat.cast_ne_zero.mpr hpos.ne'

theorem getD_replicate_zero (n t : ℕ) : (List.replicate n (0 : ℚ)).getD t 0 = 0 := by
  by_cases h : t < n
  · rw [List.getD_eq_getElem _ _ (by simpa using h), List.getElem_replicate]
  · rw [List.getD_eq_default]
    simpa using Nat.le_of_not_lt h

/-- C3: extract-then-broadcast roundtrip for labels.  If, at each instant,
all voxels sharing a raw label hold one identical value, then
`signals_from_labels` followed by `img_from_labels` (same label volume, mask
and background) reproduces the original stack exactly on every voxel whose
masked label is non-background, and yields zero on every other voxel. -/
theorem labels_roundtrip {nv : ℕ} (data : List (Fin nv → ℚ))
    (labels : Fin nv → ℤ) (mask : Option (Fin nv → Bool)) (bg : ℤ)
    (hconst : ∀ img ∈ data, ∀ v w : Fin nv, labels v = labels w → img v = img w)
    (t : ℕ) (ht : t < data.length) (v : Fin nv) :
    (maskedLabels labels mask bg v ≠ bg →
      (img_from_labels (signals_from_labels data labels mask bg).1 labels mask
          bg v).getD t 0
        = (data.getD t (fun _ => 0)) v)
    ∧ (maskedLabels labels mask bg v = bg →
      (img_from_labels (signals_from_labels data labels mask bg).1 labels mask
          bg v).getD t 0 = 0) := by
  have hlen : (signals_from_labels data labels mask bg).1.length = data.length :=
    List.length_map data _
  constructor
  · intro hne
    have hmem : maskedLabels labels mask bg v
        ∈ uniqueLabels (rasterOf (maskedLabels labels mask bg)) bg := by
      rw [uniqueLabels_mem, rasterOf_mem]
      exact ⟨⟨v, rfl⟩, hne⟩
    obtain ⟨⟨n, hn⟩, hget⟩ := List.mem_iff_get.mp hmem
    have hfold : img_from_labels (signals_from_labels data labels mask bg).1
        labels mask bg v
        = sigColumn (signals_from_labels data labels mask bg).1 n := by
      unfold img_from_labels
      rw [show (uniqueLabels (rasterOf (maskedLabels labels mask bg)) bg).enum
          = (uniqueLabels (rasterOf (maskedLabels labels mask bg)) bg).enumFrom 0
          from rfl]
      rw [foldl_assign_get (maskedLabels labels mask bg) _ _
        (uniqueLabels_nodup _ bg) 0 _ v n hn hget, Nat.zero_add]
    rw [hfold]
    unfold sigColumn
    rw [getD_map_of_lt _ _ t [] 0 (by rw [hlen]; exact ht)]
    rw [show (signals_from_labels data labels mask bg).1
        = data.map (fun img =>
            (uniqueLabels (rasterOf (maskedLabels labels mask bg)) bg).map
              (fun l => ndimageMean img (maskedLabels labels mask bg) l)) from rfl]
    rw [getD_map_of_lt data _ t (fun _ => 0) [] ht]
    rw [getD_map_of_lt _ _ n (0 : ℤ) 0 hn]
    rw [show (uniqueLabels (rasterOf (maskedLabels labels mask bg)) bg).getD n 0
        = (uniqueLabels (rasterOf (maskedLabels labels mask bg)) bg).get ⟨n, hn⟩
        from (List.getD_eq_getElem _ _ hn)]
    rw [hget]
    apply ndimageMean_of_const
    intro w hw
    have hwne : maskedLabels labels mask bg w ≠ bg := by
      rw [hw]
      exact hne
    apply hconst (data.getD t (fun _ => 0))
    · rw [List.getD_eq_getElem _ _ ht]
      exact List.getElem_mem ht
    · rw [← maskedLabels_eq_of_ne_bg labels mask bg w hwne,
        ← maskedLabels_eq_of_ne_bg labels mask bg v hne]
      exact hw
  · intro hbg
    have hnot : maskedLabels labels mask bg v
        ∉ uniqueLabels (rasterOf (maskedLabels labels mask bg)) bg := by
      rw [uniqueLabels_mem]
      rintro ⟨-, hne⟩
      exact hne hbg
    have hfold : img_from_labels (signals_from_labels data labels mask bg).1
        labels mask bg v
        = List.replicate (signals_from_labels data labels mask bg).1.length 0 := by
      unfold img_from_labels
      rw [show (uniqueLabels (rasterOf (maskedLabels labels mask bg)) bg).enum
          = (uniqueLabels (rasterOf (maskedLabels labels mask bg)) bg).enumFrom 0
          from rfl]
      rw [foldl_assign_not_mem _ _ _ 0 _ v hnot]
    rw [hfold, getD_replicate_zero]

/-- Witness for C3 at a concrete input: voxel 0 carries label 7 and is
reproduced; voxel 1 carries the background label and receives zero. -/
theorem labels_roundtrip_witness :
    ((maskedLabels w3Labels none 0 0 ≠ 0 →
      (img_from_labels (signals_from_labels w3Data w3Labels none 0).1 w3Labels
          none 0 0).getD 0 0
        = (w3Data.getD 0 (fun _ => 0)) 0)
    ∧ (maskedLabels w3Labels none 0 0 = 0 →
      (img_from_labels (signals_from_labels w3Data w3Labels none 0).1 w3Labels
          none 0 0).getD 0 0 = 0))
    ∧ ((maskedLabels w3Labels none 0 1 ≠ 0 →
      (img_from_labels (signals_from_labels w3Data w3Labels none 0).1 w3Labels
          none 0 1).getD 0 0
        = (w3Data.getD 0 (fun _ => 0)) 1)
    ∧ (maskedLabels w3Labels none 0 1 = 0 →
      (img_from_labels (signals_from_labels w3Data w3Labels none 0).1 w3Labels
          none 0 1).getD 0 0 = 0)) := by
  have hconst : ∀ img ∈ w3Data, ∀ v w : Fin 2, w3Labels v = w3Labels w →
      img v = img w := by
    intro img himg v w h
    rw [List.mem_singleton.mp himg]
  exact ⟨labels_roundtrip w3Data w3Labels none 0 hconst 0 (by norm_num [w3Data]) 0,
    labels_roundtrip w3Data w3Labels none 0 hconst 0 (by norm_num [w3Data]) 1⟩

/-- C1 counterexample: for the region with weights `(1, -1)` and voxel
signals identically `1`, the normalisation divides by
`sum of weights / sum of squared weights = 0`, and no least-squares solution
of the solve step yields the constant `1` after normalisation (the zero
matrix is such a solution, so the scenario is realisable). -/
theorem apply_regions_counterexample :
    IsLstsqSol (fun v (r : Fin 1) => c1Regions r v)
        (fun v (t : Fin 1) => c1Signals t v) (fun _ _ => 0)
    ∧ ∀ X : Fin 1 → Fin 1 → ℚ,
        IsLstsqSol (fun v r => c1Regions r v) (fun v t => c1Signals t v) X →
        apply_regions c1Regions X true 0 0 ≠ 1 := by
  constructor
  · intro r t
    simp [c1Regions, c1Signals, Fin.sum_univ_succ]
  · intro X hX
    unfold apply_regions
    rw [if_pos rfl]
    have hzero : (∑ v, c1Regions 0 v) = 0 := by
      simp [c1Regions, Fin.sum_univ_succ]
    rw [hzero, zero_div, div_zero]
    norm_num

/-- C1 (amended): when the regions have pairwise disjoint supports (so that
the least-squares system decouples), and the distinguished region's weights
are not all zero AND have nonzero sum, then for voxel signals equal to an
identical constant `c` on that region's support at instant `t`,
`apply_regions` with `normalize_regions=True` returns exactly `c` for that
region and instant, for every least-squares solution of the solve step. -/
theorem apply_regions_normalize_const {nv nr nt : ℕ}
    (regions : Fin nr → Fin nv → ℚ) (signals : Fin nt → Fin nv → ℚ)
    (X : Fin nr → Fin nt → ℚ) (r : Fin nr) (t : Fin nt) (c : ℚ)
    (hdisj : ∀ q : Fin nr, q ≠ r → ∀ v, regions r v ≠ 0 → regions q v = 0)
    (hw2 : (∑ v, (regions r v) ^ 2) ≠ 0)
    (hws : (∑ v, regions r v) ≠ 0)
    (hconst : ∀ v, regions r v ≠ 0 → signals t v = c)
    (hX : IsLstsqSol (fun v q => regions q v) (fun v s => signals s v) X) :
    apply_regions regions X true t r = c := by
  have heq := hX r t
  have hswap : (∑ v, regions r v * (∑ q, regions q v * X q t))
      = ∑ q, (∑ v, regions r v * regions q v) * X q t := by
    calc (∑ v, regions r v * (∑ q, regions q v * X q t))
        = ∑ v, ∑ q, regions r v * (regions q v * X q t) :=
          Finset.sum_congr rfl (fun v _ => Finset.mul_sum _ _ _)
      _ = ∑ q, ∑ v, regions r v * (regions q v * X q t) := Finset.sum_comm
      _ = ∑ q, (∑ v, regions r v * regions q v) * X q t := by
          refine Finset.sum_congr rfl (fun q _ => ?_)
          rw [Finset.sum_mul]
          exact Finset.sum_congr rfl (fun v _ => by ring)
  have horth : ∀ q, q ≠ r → (∑ v, regions r v * regions q v) = 0 := by
    intro q hq
    apply Finset.sum_eq_zero
    intro v _
    by_cases hrv : regions r v = 0
    · rw [hrv, zero_mul]
    · rw [hdisj q hq v hrv, mul_zero]
  have hsingle : (∑ q, (∑ v, regions r v * regions q v) * X q t)
      = (∑ v, (regions r v) ^ 2) * X r t := by
    rw [Finset.sum_eq_single r
      (fun q _ hq => by rw [horth q hq, zero_mul])
      (fun habs => absurd (Finset.mem_univ r) habs)]
    congr 1
    exact Finset.sum_congr rfl (fun v _ => by ring)
  have hrhs : (∑ v, regions r v * signals t v) = (∑ v, regions r v) * c := by
    rw [Finset.sum_mul]
    refine Finset.sum_congr rfl (fun v _ => ?_)
    by_cases hrv : regions r v = 0
    · rw [hrv, zero_mul, zero_mul]
    · rw [hconst v hrv]
  rw [hswap, hsingle, hrhs] at heq
  have hXval : X r t = (∑ v, regions r v) * c / (∑ v, (regions r v) ^ 2) := by
    rw [eq_div_iff hw2, mul_comm]
    exact heq
  unfold apply_regions
  rw [if_pos rfl, hXval]
  field_simp

/-- Witness for the amended C1 at a concrete input: region weights `(1, 2)`,
signals identically `3`; the normalised output is exactly `3`. -/
theorem apply_regions_normalize_const_witness :
    apply_regions w1Regions w1X true 0 0 = 3 := by
  refine apply_regions_normalize_const w1Regions w1Signals w1X 0 0 3
    ?_ ?_ ?_ ?_ ?_
  · intro q hq v hv
    exact absurd (Subsingleton.elim q 0) hq
  · simp [w1Regions, Fin.sum_univ_succ]
    norm_num
  · simp [w1Regions, Fin.sum_univ_succ]
    norm_num
  · intro v hv
    rfl
  · intro r t
    simp [w1Regions, w1Signals, w1X, Fin.sum_univ_succ]
    norm_num

theorem heapExtends_refl (h : Heap) (N : ℕ) (hN : N ≤ h.next) :
    HeapExtends h h N :=
  ⟨hN, fun _ _ => rfl⟩

theorem heapExtends_alloc (h0 h : Heap) (N : ℕ) (a : ℕ → ℕ → ℚ)
    (hx : HeapExtends h0 h N) : HeapExtends h0 (heapAlloc h a).1 N := by
  refine ⟨Nat.le_succ_of_le hx.1, fun r hr => ?_⟩
  show Function.update h.mem h.next a r = h0.mem r
  rw [Function.update_noteq (Nat.ne_of_lt (Nat.lt_of_lt_of_le hr hx.1))]
  exact hx.2 r hr

theorem heapExtends_write (h0 h : Heap) (N : ℕ) (ref : ℕ) (a : ℕ → ℕ → ℚ)
    (href : N ≤ ref) (hx : HeapExtends h0 h N) :
    HeapExtends h0 (heapWrite h ref a) N := by
  refine ⟨hx.1, fun r hr => ?_⟩
  show Function.update h.mem ref a r = h0.mem r
  rw [Function.update_noteq (Nat.ne_of_lt (Nat.lt_of_lt_of_le hr href))]
  exact hx.2 r hr

theorem heapExtends_foldl {σ α : Type} (proj : σ → Heap) (step : σ → α → σ)
    (h0 : Heap) (N : ℕ)
    (hstep : ∀ s a, HeapExtends h0 (proj s) N → HeapExtends h0 (proj (step s a)) N) :
    ∀ (l : List α) (s : σ), HeapExtends h0 (proj s) N →
      HeapExtends h0 (proj (l.foldl step s)) N := by
  intro l
  induction l with
  | nil => intro s hs; exact hs
  | cons x xs ih => intro s hs; exact ih (step s x) (hstep s x hs)

theorem signalsFromLabelsHeap_extends (nv nt : ℕ) (h : Heap)
    (labRef dataRef : ℕ) (maskRef : Option ℕ) (bg : ℚ) :
    HeapExtends h (signalsFromLabelsHeap nv nt h labRef dataRef maskRef bg).1
      h.next := by
  unfold signalsFromLabelsHeap
  cases maskRef with
  | none =>
      dsimp only
      apply heapExtends_foldl (fun hh : Heap => hh)
      · intro s a hs
        exact heapExtends_write h s h.next h.next _ (le_refl _) hs
      · exact heapExtends_alloc h h h.next _ (heapExtends_refl h h.next (le_refl _))
  | some mr =>
      dsimp only
      apply heapExtends_foldl (fun hh : Heap => hh)
      · intro s a hs
        exact heapExtends_write h s h.next (h.next + 1) _ (Nat.le_succ _) hs
      · apply heapExtends_alloc
        apply heapExtends_write h _ h.next h.next _ (le_refl _)
        exact heapExtends_alloc h h h.next _ (heapExtends_refl h h.next (le_refl _))

theorem imgFromLabelsHeap_extends (nv : ℕ) (h : Heap)
    (signals : List (List ℚ)) (labRef : ℕ) (maskRef : Option ℕ) (bg : ℚ) :
    HeapExtends h (imgFromLabelsHeap nv h signals labRef maskRef bg).1
      h.next := by
  unfold imgFromLabelsHeap
  cases maskRef with
  | none =>
      dsimp only
      apply heapExtends_foldl (fun hh : Heap => hh)
      · intro s a hs
        exact heapExtends_write h s h.next h.next _ (le_refl _) hs
      · exact heapExtends_alloc h h h.next _ (heapExtends_refl h h.next (le_refl _))
  | some mr =>
      dsimp only
      apply heapExtends_foldl (fun hh : Heap => hh)
      · intro s a hs
        exact heapExtends_write h s h.next h.next _ (le_refl _) hs
      · apply heapExtends_write h _ h.next (h.next + 1) _ (Nat.le_succ _)
        apply heapExtends_alloc
        exact heapExtends_alloc h h h.next _ (heapExtends_refl h h.next (le_refl _))

theorem trimMapsHeap_extends (nv nr : ℕ) (h : Heap) (mapsRef maskRef : ℕ) :
    HeapExtends h (trimMapsHeap nv nr h mapsRef maskRef).1 h.next := by
  unfold trimMapsHeap
  dsimp only
  apply heapExtends_foldl (fun st : Heap × ℕ => st.1)
  · intro s a hs
    by_cases hsum : (fun n : Fin nr =>
        ∑ v ∈ Finset.univ.filter
          (fun v : Fin nv => (heapAlloc h (h.mem mapsRef)).1.mem maskRef v.val 0 ≠ 0),
          |(heapAlloc h (h.mem mapsRef)).1.mem (heapAlloc h (h.mem mapsRef)).2 v.val n.val|) a = 0
    · rw [if_pos hsum]
      exact hs
    · rw [if_neg hsum]
      apply heapExtends_write h _ h.next (h.next + 2) _ (by omega)
      apply heapExtends_write h _ h.next (h.next + 1) _ (Nat.le_succ _)
      exact hs
  · apply heapExtends_alloc
    apply heapExtends_alloc
    exact heapExtends_alloc h h h.next _ (heapExtends_refl h h.next (le_refl _))

/-- C10: no modelled operation mutates a caller-owned array.  After a call
of (the heap model of) `signals_from_labels`, `img_from_labels` or
`_trim_maps`, every array reference allocated before the call holds exactly
its original contents: the relabelling happens on a private copy and the
trim loop writes only to the fresh trimmed / union-mask arrays. -/
theorem no_caller_array_mutation (nv nr nt : ℕ) (h : Heap)
    (labRef dataRef mapsRef maskRef1 : ℕ) (maskRef : Option ℕ) (bg : ℚ)
    (signals : List (List ℚ)) (r : ℕ) (hr : r < h.next) :
    ((signalsFromLabelsHeap nv nt h labRef dataRef maskRef bg).1).mem r
        = h.mem r
    ∧ ((imgFromLabelsHeap nv h signals labRef maskRef bg).1).mem r = h.mem r
    ∧ ((trimMapsHeap nv nr h mapsRef maskRef1).1).mem r = h.mem r :=
  ⟨(signalsFromLabelsHeap_extends nv nt h labRef dataRef maskRef bg).2 r hr,
   (imgFromLabelsHeap_extends nv h signals labRef maskRef bg).2 r hr,
   (trimMapsHeap_extends nv nr h mapsRef maskRef1).2 r hr⟩

/-- Witness for C10 at a concrete input: with three caller-owned arrays
(references 0, 1, 2) on the heap, reference 0 is unchanged by all three
modelled operations (with a mask supplied, so the relabelling path runs). -/
theorem no_caller_array_mutation_witness :
    ((signalsFromLabelsHeap 2 1 w10Heap 0 1 (some 2) 0).1).mem 0
        = w10Heap.mem 0
    ∧ ((imgFromLabelsHeap 2 w10Heap [[5]] 0 (some 2) 0).1).mem 0
        = w10Heap.mem 0
    ∧ ((trimMapsHeap 2 1 w10Heap 0 2).1).mem 0 = w10Heap.mem 0 :=
  no_caller_array_mutation 2 1 1 w10Heap 0 1 0 2 (some 2) 0 [[5]] 0
    (by norm_num [w10Heap])

end Nisl
